import Mathlib

/-!
Verification development for the ownership-tree / traversal-engine core of a
music-notation toolkit (`src/object.cpp`).  The C++ classes `Object`,
`Functor`, `MutableFunctor`, `ObjectListInterface` and the layout functor
`Object::CalcBBoxOverflows` are shallowly embedded as Lean definitions below;
the theorems at the end of the file settle the frozen claims about them.
-/

namespace VrvSpec

/-- Traversal control codes, `FunctorCode` in the source:
`FUNCTOR_CONTINUE`, `FUNCTOR_SIBLINGS`, `FUNCTOR_STOP`. -/
inductive FunctorCode where
  | CONTINUE
  | SIBLINGS
  | STOP
deriving DecidableEq, Repr

/-- The class tags (`ClassId`) that the embedded code inspects through
`Object::Is`.  Every other concrete class is collapsed into `OTHER`. -/
inductive ClassId where
  | STAFF
  | LAYER
  | BEAM
  | STEM
  | NOTE
  | CLEF
  | FB
  | FIGURE
  | SYL
  | SCORE
  | PAGE_MILESTONE_END
  | MDIV
  | OTHER
deriving DecidableEq, Repr

/-- Per-node data of an `Object`: its id, class tag, the class-hierarchy
predicates (`IsEditorialElement`, `IsSystemElement`, `IsControlElement`,
`IsLayerElement`), the visibility attribute read by `Object::SkipChildren`
(`m_visibility == Hidden`), the milestone data read by
`Object::UpdateDocumentScore`, and the drawing attributes read by
`Object::CalcBBoxOverflows`.  The fields `stemParentCrossStaff`,
`stemHasAncestorBeam`, `stemAncestorBeamCrossStaff` and `stemInBeamSpan`
snapshot the ancestor queries of the stem branch (`GetParent`,
`GetAncestorBeam`, `GetFirstAncestor(BEAM)`, `GetIsInBeamSpan`), whose
definitions live outside the excerpt; `overflowAbove`/`overflowBelow`
snapshot `StaffAlignment::CalcOverflowAbove/Below` (also outside the
excerpt, per the spec the vertical extent of the node against the staff). -/
structure NodeData where
  id : Nat
  classId : ClassId := ClassId.OTHER
  isEditorialElement : Bool := false
  isSystemElement : Bool := false
  isControlElement : Bool := false
  isLayerElement : Bool := false
  hidden : Bool := false
  startIsScore : Bool := false
  startId : Nat := 0
  drawingIsVisible : Bool := true
  crossStaff : Bool := false
  crossStaffContent : Bool := false
  hasSelfBB : Bool := false
  scoreDefRoleSystem : Bool := false
  stemParentCrossStaff : Bool := false
  stemHasAncestorBeam : Bool := false
  stemAncestorBeamCrossStaff : Bool := false
  stemInBeamSpan : Bool := false
  overflowAbove : Int := 0
  overflowBelow : Int := 0
deriving DecidableEq, Repr

/-- The ownership tree: an `Object` is its data plus the ordered list of
owned children (`m_children`). -/
inductive Node where
  | mk : NodeData → List Node → Node

/-- Data of a node. -/
def Node.data : Node → NodeData
  | .mk d _ => d

/-- Children of a node (`m_children`). -/
def Node.children : Node → List Node
  | .mk _ cs => cs

/-- Induction over the ownership tree with the hypothesis available for every
child in the child list. -/
theorem Node.strongInd {P : Node → Prop}
    (H : ∀ d cs, (∀ c ∈ cs, P c) → P (Node.mk d cs)) : ∀ n, P n
  | .mk d cs => H d cs (fun c hc => Node.strongInd H c)
termination_by n => sizeOf n
decreasing_by
  have h1 : sizeOf c < sizeOf cs := List.sizeOf_lt_of_mem hc
  simp only [Node.mk.sizeOf_spec]
  omega

/-- Direction constant: forward = document order.  `FORWARD`/`BACKWARD` are
boolean constants from the (missing) header; modelled from the spec, which
opposes forward = document order to backward = reverse child order. -/
def FORWARD : Bool := true

/-- Direction constant for reverse child order at every level. -/
def BACKWARD : Bool := false

/-- `Object::SkipChildren`: under `visibleOnly`, the children of a hidden
editorial element, hidden `Mdiv`, or hidden system element are skipped. -/
def skipChildren (visibleOnly : Bool) (d : NodeData) : Bool :=
  if visibleOnly then
    if d.isEditorialElement then d.hidden
    else if d.classId = ClassId.MDIV then d.hidden
    else if d.isSystemElement then d.hidden
    else false
  else false

/-- `Object::FiltersApply`: with no filters every child passes. -/
def filtersApply (filters : Option (Node → Bool)) (n : Node) : Bool :=
  match filters with
  | none => true
  | some f => f n

/-- `Object::UpdateDocumentScore`: entering a score forward, or entering a
page-milestone end whose paired start is a score backward, updates the
document's current-score pointer (modelled as the score's id). -/
def updScore (direction : Bool) (d : NodeData) (cur : Option Nat) : Option Nat :=
  if direction = FORWARD ∧ d.classId = ClassId.SCORE then some d.id
  else if direction = BACKWARD ∧ d.classId = ClassId.PAGE_MILESTONE_END ∧ d.startIsScore then
    some d.startId
  else cur

/-- A visitor of the old-style dispatch (`class Functor`): the member
function pointer called through `Functor::Call` reads and writes the shared
`FunctorParams` (state `σ`) and returns the code stored into
`m_returnCode`; `m_visibleOnly` is a member of the functor. -/
structure FunctorV (σ : Type) where
  visit : σ → NodeData → σ × FunctorCode
  visibleOnly : Bool := true

/-- The traversal-scoped state threaded through `Object::Process`:
the shared `FunctorParams` (`st`), the main functor's `m_returnCode`
(`code`), the end functor's own `m_returnCode` (`endCode`, written by
`endFunctor->Call` but never consulted by the traversal), the ghost log of
entry visits in visiting order (ids), and the document's current-score
pointer written by `UpdateDocumentScore`. -/
structure TravState (σ : Type) where
  st : σ
  code : FunctorCode := FunctorCode.CONTINUE
  endCode : FunctorCode := FunctorCode.CONTINUE
  log : List Nat := []
  curScore : Option Nat := none
deriving DecidableEq, Repr

/-- `Functor::Call`: invoke the visitor on a node, store the returned code,
and append the node to the ghost visit log. -/
def callF (v : FunctorV σ) (n : Node) (s : TravState σ) : TravState σ :=
  let r := v.visit s.st n.data
  { s with st := r.1, code := r.2, log := s.log ++ [n.data.id] }

/-- `endFunctor->Call`: the end functor shares the params but stores its
code in its own `m_returnCode`, which the traversal never reads. -/
def callEndF (v : FunctorV σ) (n : Node) (s : TravState σ) : TravState σ :=
  let r := v.visit s.st n.data
  { s with st := r.1, endCode := r.2 }

/-- Size of the child list is below the size of the node, for termination of
the mutual traversal recursion. -/
theorem Node.sizeOf_children_lt (n : Node) : sizeOf n.children < sizeOf n := by
  cases n with
  | mk d cs => simp only [Node.children, Node.mk.sizeOf_spec]; omega

mutual

/-- `Object::Process(Functor *, FunctorParams *, Functor *endFunctor,
Filters *, int deepness, bool direction, bool skipFirst)`
(`src/object.cpp:999-1052`), translated line by line: abort check, current
score update, entry call, SIBLINGS reset-and-return, editorial deepness
increment, deepness cutoff and decrement, child loop (reverse order when
backward), end call. -/
def process (v : FunctorV σ) (endV : Option (FunctorV σ))
    (filters : Option (Node → Bool)) (direction : Bool) (deepness : Int)
    (skipFirst : Bool) (n : Node) (s : TravState σ) : TravState σ :=
  if s.code = FunctorCode.STOP then s
  else
    let s := { s with curScore := updScore direction n.data s.curScore }
    let s := if !skipFirst then callF v n s else s
    if s.code = FunctorCode.SIBLINGS then { s with code := FunctorCode.CONTINUE }
    else
      let deepness := if n.data.isEditorialElement then deepness + 1 else deepness
      if deepness = 0 then s
      else
        let deepness := deepness - 1
        let s :=
          if !(skipChildren v.visibleOnly n.data) then
            processList v endV filters direction deepness n.children s
          else s
        match endV, skipFirst with
        | some e, false => callEndF e n s
        | _, _ => s
termination_by sizeOf n
decreasing_by
  · exact Node.sizeOf_children_lt n

/-- The child loop of `Object::Process`.  Forward direction iterates the
list front to back threading the traversal state; backward direction is the
`reverse_iterator` loop, i.e. the later children are processed first.
A child is recursed into only if `FiltersApply` accepts it. -/
def processList (v : FunctorV σ) (endV : Option (FunctorV σ))
    (filters : Option (Node → Bool)) (direction : Bool) (deepness : Int)
    (cs : List Node) (s : TravState σ) : TravState σ :=
  match cs with
  | [] => s
  | c :: rest =>
    if direction = BACKWARD then
      let s := processList v endV filters direction deepness rest s
      if filtersApply filters c then
        process v endV filters direction deepness false c s
      else s
    else
      let s := if filtersApply filters c then
        process v endV filters direction deepness false c s
      else s
      processList v endV filters direction deepness rest s
termination_by sizeOf cs
decreasing_by
  all_goals simp only [List.cons.sizeOf_spec]
  all_goals omega

end

/-- A visitor of the unified dispatch (`class MutableFunctor`): entry and
end callbacks (`Accept` / `AcceptEnd`) share the one return code stored by
`SetCode`; direction, filters and the visibility flag are members of the
functor (`GetDirection`, `GetFilters`, `VisibleOnly`). -/
structure MVisitor (σ : Type) where
  visit : σ → NodeData → σ × FunctorCode
  visitEnd : Option (σ → NodeData → σ × FunctorCode) := none
  direction : Bool := FORWARD
  filters : Option (Node → Bool) := none
  visibleOnly : Bool := true

/-- State threaded through `Object::Process(MutableFunctor &)`: the
functor's state and single shared code, the ghost entry-visit log, and the
current-score pointer. -/
structure MTravState (σ : Type) where
  st : σ
  code : FunctorCode := FunctorCode.CONTINUE
  log : List Nat := []
  curScore : Option Nat := none
deriving DecidableEq, Repr

mutual

/-- `Object::Process(MutableFunctor &functor, int deepness, bool skipFirst)`
(`src/object.cpp:1109-1164`): like the old-style overload, but dispatching
through `Accept`/`AcceptEnd` and storing both codes through
`functor.SetCode` into the same field. -/
def processM (v : MVisitor σ) (deepness : Int) (skipFirst : Bool) (n : Node)
    (s : MTravState σ) : MTravState σ :=
  if s.code = FunctorCode.STOP then s
  else
    let s := { s with curScore := updScore v.direction n.data s.curScore }
    let s := if !skipFirst then
        let r := v.visit s.st n.data
        { s with st := r.1, code := r.2, log := s.log ++ [n.data.id] }
      else s
    if s.code = FunctorCode.SIBLINGS then { s with code := FunctorCode.CONTINUE }
    else
      let deepness := if n.data.isEditorialElement then deepness + 1 else deepness
      if deepness = 0 then s
      else
        let deepness := deepness - 1
        let s :=
          if !(skipChildren v.visibleOnly n.data) then
            processMList v deepness n.children s
          else s
        match v.visitEnd, skipFirst with
        | some e, false =>
          let r := e s.st n.data
          { s with st := r.1, code := r.2 }
        | _, _ => s
termination_by sizeOf n
decreasing_by
  · exact Node.sizeOf_children_lt n

/-- Child loop of `Object::Process(MutableFunctor &)`; reverse iteration
when the functor's direction is backward. -/
def processMList (v : MVisitor σ) (deepness : Int) (cs : List Node)
    (s : MTravState σ) : MTravState σ :=
  match cs with
  | [] => s
  | c :: rest =>
    if v.direction = BACKWARD then
      let s := processMList v deepness rest s
      if filtersApply v.filters c then processM v deepness false c s else s
    else
      let s := if filtersApply v.filters c then processM v deepness false c s else s
      processMList v deepness rest s
termination_by sizeOf cs
decreasing_by
  all_goals simp only [List.cons.sizeOf_spec]
  all_goals omega

end

/-! ### Pure characterizations of the traversal

`visitIds` computes, as a pure function of the tree, the sequence of entry
visits a traversal performs when the visitor always answers CONTINUE.  It is
proved below to coincide with the `log` component of `process`.  `allIds` is
the full document-order id list, `mirror` the tree with every child list
reversed, `pathGet` indexes a node by its child-index path. -/

mutual

/-- Entry-visit sequence of an always-CONTINUE traversal of one node. -/
def visitIds (vOnly : Bool) (filters : Option (Node → Bool)) (dir : Bool)
    (dp : Int) (n : Node) : List Nat :=
  match n with
  | .mk d cs =>
    let dp' := if d.isEditorialElement then dp + 1 else dp
    d.id ::
      (if dp' = 0 then []
       else if skipChildren vOnly d then []
       else visitIdsList vOnly filters dir (dp' - 1) cs)
termination_by sizeOf n
decreasing_by
  · simp only [Node.mk.sizeOf_spec]; omega

/-- Entry-visit sequence of an always-CONTINUE traversal of a child list. -/
def visitIdsList (vOnly : Bool) (filters : Option (Node → Bool)) (dir : Bool)
    (dp : Int) (cs : List Node) : List Nat :=
  match cs with
  | [] => []
  | c :: rest =>
    if dir = BACKWARD then
      visitIdsList vOnly filters dir dp rest ++
        (if filtersApply filters c then visitIds vOnly filters dir dp c else [])
    else
      (if filtersApply filters c then visitIds vOnly filters dir dp c else []) ++
        visitIdsList vOnly filters dir dp rest
termination_by sizeOf cs
decreasing_by
  all_goals simp only [List.cons.sizeOf_spec]
  all_goals omega

end

mutual

/-- All ids of the tree in document (forward preorder) order. -/
def allIds : Node → List Nat
  | .mk d cs => d.id :: allIdsList cs
termination_by n => sizeOf n
decreasing_by
  · simp only [Node.mk.sizeOf_spec]; omega

/-- All ids of a forest in document order. -/
def allIdsList : List Node → List Nat
  | [] => []
  | c :: rest => allIds c ++ allIdsList rest
termination_by cs => sizeOf cs
decreasing_by
  all_goals simp only [List.cons.sizeOf_spec]
  all_goals omega

end

mutual

/-- The tree with every level's child order reversed. -/
def mirror : Node → Node
  | .mk d cs => .mk d (mirrorList cs)
termination_by n => sizeOf n
decreasing_by
  · simp only [Node.mk.sizeOf_spec]; omega

/-- Reverse a forest, mirroring each tree. -/
def mirrorList : List Node → List Node
  | [] => []
  | c :: rest => mirrorList rest ++ [mirror c]
termination_by cs => sizeOf cs
decreasing_by
  all_goals simp only [List.cons.sizeOf_spec]
  all_goals omega

end

/-- Node addressed by a child-index path below the root. -/
def pathGet : List Nat → Node → Option Node
  | [], n => some n
  | i :: p, .mk _ cs =>
    match cs[i]? with
    | none => none
    | some c => pathGet p c

/-- Number of non-wrapper (non-editorial) proper ancestors of the node at
the given path, counted within the traversal subtree (root included, the
node itself excluded). -/
def countNonWrapper : List Nat → Node → Nat
  | [], _ => 0
  | i :: p, .mk d cs =>
    (if d.isEditorialElement then 0 else 1) +
      match cs[i]? with
      | none => 0
      | some c => countNonWrapper p c

/-! ### Log characterization of always-CONTINUE traversals -/

theorem processList_log_aux {σ : Type} (v : FunctorV σ) (endV : Option (FunctorV σ))
    (filters : Option (Node → Bool)) (dir : Bool) (cs : List Node)
    (ihs : ∀ c ∈ cs, ∀ (dp : Int) (s : TravState σ), s.code = FunctorCode.CONTINUE →
      (process v endV filters dir dp false c s).code = FunctorCode.CONTINUE ∧
      (process v endV filters dir dp false c s).log =
        s.log ++ visitIds v.visibleOnly filters dir dp c) :
    ∀ (dp : Int) (s : TravState σ), s.code = FunctorCode.CONTINUE →
      (processList v endV filters dir dp cs s).code = FunctorCode.CONTINUE ∧
      (processList v endV filters dir dp cs s).log =
        s.log ++ visitIdsList v.visibleOnly filters dir dp cs := by
  induction cs with
  | nil => intro dp s hs; rw [processList, visitIdsList]; simp [hs]
  | cons c rest ih =>
    intro dp s hs
    have ihc := ihs c (by simp)
    have ihrest := ih (fun c' hc' => ihs c' (by simp [hc']))
    rw [processList, visitIdsList]
    by_cases hdir : dir = BACKWARD
    · subst hdir
      simp only [if_true]
      obtain ⟨h1, h2⟩ := ihrest dp s hs
      by_cases hf : filtersApply filters c
      · obtain ⟨h3, h4⟩ := ihc dp _ h1
        simp [hf, h3, h4, h2, List.append_assoc]
      · simp [hf, h1, h2]
    · simp only [hdir, if_false]
      by_cases hf : filtersApply filters c
      · obtain ⟨h1, h2⟩ := ihc dp s hs
        obtain ⟨h3, h4⟩ := ihrest dp _ h1
        simp [hf, h1, h2, h3, h4]
      · obtain ⟨h3, h4⟩ := ihrest dp s hs
        simp [hf, h3, h4]

theorem process_log_char {σ : Type} (v : FunctorV σ) (endV : Option (FunctorV σ))
    (filters : Option (Node → Bool)) (dir : Bool)
    (hv : ∀ s d, (v.visit s d).2 = FunctorCode.CONTINUE) :
    ∀ (n : Node) (dp : Int) (s : TravState σ), s.code = FunctorCode.CONTINUE →
      (process v endV filters dir dp false n s).code = FunctorCode.CONTINUE ∧
      (process v endV filters dir dp false n s).log =
        s.log ++ visitIds v.visibleOnly filters dir dp n := by
  apply Node.strongInd
  intro d cs ih dp s hs
  rw [process, visitIds]
  simp only [hs, callF, Node.data, Node.children]
  have hcode := hv s.st d
  by_cases hdp : (if d.isEditorialElement then dp + 1 else dp) = 0
  · simp [hcode, hdp, hs]
  · by_cases hskip : skipChildren v.visibleOnly d
    · simp [hcode, hdp, hskip, hs]
      cases endV with
      | none => simp
      | some e => simp [callEndF]
    · have hlist := processList_log_aux v endV filters dir cs ih
        ((if d.isEditorialElement then dp + 1 else dp) - 1)
        { st := (v.visit s.st d).1, code := FunctorCode.CONTINUE,
          endCode := s.endCode, log := s.log ++ [d.id],
          curScore := updScore dir d s.curScore } rfl
      simp only [hcode, hdp, hskip] at hlist ⊢
      simp [hcode, hdp, hskip, hs]
      cases endV with
      | none => simp [hlist.1, hlist.2]
      | some e => simp [callEndF, hlist.1, hlist.2]

/-! ### Abort-code and log helper lemmas -/

/-- STOP is checked at every recursive entry: a traversal entered with the
abort code in force returns its state unchanged. -/
theorem process_stop_frozen {σ : Type} (v : FunctorV σ) (endV : Option (FunctorV σ))
    (filters : Option (Node → Bool)) (dir : Bool) (dp : Int) (sf : Bool)
    (n : Node) (s : TravState σ) (h : s.code = FunctorCode.STOP) :
    process v endV filters dir dp sf n s = s := by
  rw [process]; simp [h]

/-- A child loop entered with the abort code in force is a no-op. -/
theorem processList_stop_frozen {σ : Type} (v : FunctorV σ) (endV : Option (FunctorV σ))
    (filters : Option (Node → Bool)) (dir : Bool) (dp : Int)
    (cs : List Node) (s : TravState σ) (h : s.code = FunctorCode.STOP) :
    processList v endV filters dir dp cs s = s := by
  induction cs with
  | nil => rw [processList]
  | cons c rest ih =>
    rw [processList]
    by_cases hdir : dir = BACKWARD
    · subst hdir
      simp only [if_true, ih]
      by_cases hf : filtersApply filters c
      · simp [hf, process_stop_frozen _ _ _ _ _ _ _ _ h]
      · simp [hf]
    · simp only [hdir, if_false]
      by_cases hf : filtersApply filters c
      · simp [hf, process_stop_frozen _ _ _ _ _ _ _ _ h, ih]
      · simp [hf, ih]

/-- The entry-visit log only ever grows: whatever the visitor answers, the
child loop appends to the log it was given. -/
theorem processList_log_append_aux {σ : Type} (v : FunctorV σ) (endV : Option (FunctorV σ))
    (filters : Option (Node → Bool)) (dir : Bool) (cs : List Node)
    (ihs : ∀ c ∈ cs, ∀ (dp : Int) (sf : Bool) (s : TravState σ),
      ∃ l, (process v endV filters dir dp sf c s).log = s.log ++ l) :
    ∀ (dp : Int) (s : TravState σ),
      ∃ l, (processList v endV filters dir dp cs s).log = s.log ++ l := by
  induction cs with
  | nil => intro dp s; exact ⟨[], by rw [processList]; simp⟩
  | cons c rest ih =>
    intro dp s
    have ihrest := ih (fun c' hc' => ihs c' (by simp [hc']))
    rw [processList]
    by_cases hdir : dir = BACKWARD
    · subst hdir
      simp only [if_true]
      obtain ⟨l1, h1⟩ := ihrest dp s
      by_cases hf : filtersApply filters c
      · obtain ⟨l2, h2⟩ := ihs c (by simp) dp false (processList v endV filters BACKWARD dp rest s)
        exact ⟨l1 ++ l2, by simp [hf, h2, h1]⟩
      · exact ⟨l1, by simp [hf, h1]⟩
    · simp only [hdir, if_false]
      by_cases hf : filtersApply filters c
      · obtain ⟨l2, h2⟩ := ihs c (by simp) dp false s
        obtain ⟨l1, h1⟩ := ihrest dp (process v endV filters dir dp false c s)
        exact ⟨l2 ++ l1, by simp [hf, h1, h2]⟩
      · obtain ⟨l1, h1⟩ := ihrest dp s
        exact ⟨l1, by simp [hf, h1]⟩

/-- Log monotonicity for a single node. -/
theorem process_log_append {σ : Type} (v : FunctorV σ) (endV : Option (FunctorV σ))
    (filters : Option (Node → Bool)) (dir : Bool) :
    ∀ (n : Node) (dp : Int) (sf : Bool) (s : TravState σ),
      ∃ l, (process v endV filters dir dp sf n s).log = s.log ++ l := by
  apply Node.strongInd
  intro d cs ih dp sf s
  have haux := processList_log_append_aux v endV filters dir cs (fun c hc => ih c hc)
  rw [process]
  simp only [Node.data, Node.children]
  by_cases hstop : s.code = FunctorCode.STOP
  · exact ⟨[], by simp [hstop]⟩
  cases sf with
  | true =>
    by_cases hsib : s.code = FunctorCode.SIBLINGS
    · exact ⟨[], by simp [hstop, hsib]⟩
    by_cases hdp : (if d.isEditorialElement then dp + 1 else dp) = 0
    · exact ⟨[], by simp [hstop, hsib, hdp]⟩
    by_cases hskip : skipChildren v.visibleOnly d
    · exact ⟨[], by cases endV <;> simp [hstop, hsib, hdp, hskip]⟩
    obtain ⟨l, hl⟩ := haux ((if d.isEditorialElement then dp + 1 else dp) - 1)
      { s with curScore := updScore dir d s.curScore }
    refine ⟨l, ?_⟩
    cases endV with
    | none =>
      simp [hstop, hsib, hdp, hskip]
      simpa using hl
    | some e =>
      simp [hstop, hsib, hdp, hskip, callEndF]
      simpa using hl
  | false =>
    by_cases hsib : (v.visit s.st d).2 = FunctorCode.SIBLINGS
    · exact ⟨[d.id], by simp [hstop, callF, hsib, Node.data]⟩
    by_cases hdp : (if d.isEditorialElement then dp + 1 else dp) = 0
    · exact ⟨[d.id], by simp [hstop, callF, hsib, hdp, Node.data]⟩
    by_cases hskip : skipChildren v.visibleOnly d
    · exact ⟨[d.id], by cases endV <;> simp [hstop, callF, hsib, hdp, hskip, callEndF, Node.data, Node.children]⟩
    obtain ⟨l, hl⟩ := haux ((if d.isEditorialElement then dp + 1 else dp) - 1)
      { st := (v.visit s.st d).1, code := (v.visit s.st d).2, endCode := s.endCode,
        log := s.log ++ [d.id], curScore := updScore dir d s.curScore }
    refine ⟨[d.id] ++ l, ?_⟩
    cases endV with
    | none =>
      simp [hstop, callF, hsib, hdp, hskip, Node.data, Node.children]
      simpa using hl
    | some e =>
      simp [hstop, callF, hsib, hdp, hskip, callEndF, Node.data, Node.children]
      simpa using hl

/-! ### Claims C1 and C2 -/

/-- C1: in both dispatch protocols, a SIBLINGS answer on a node makes the
traversal return right after the entry call — with exactly that one node
added to the visit log (so none of its descendants are visited and its end
callback is skipped) and the control code already reset to CONTINUE — and
the parent's child loop then continues with the next sibling. -/
theorem c1_siblings_skips_subtree {σ τ : Type} (v : FunctorV σ)
    (endV : Option (FunctorV σ)) (filters : Option (Node → Bool))
    (dir : Bool) (dp : Int) (n : Node) (rest : List Node) (s : TravState σ)
    (t : σ) (mv : MVisitor τ) (ms : MTravState τ) (mt : τ)
    (hc : s.code ≠ FunctorCode.STOP)
    (hv : v.visit s.st n.data = (t, FunctorCode.SIBLINGS))
    (hmc : ms.code ≠ FunctorCode.STOP)
    (hmv : mv.visit ms.st n.data = (mt, FunctorCode.SIBLINGS))
    (hf : filtersApply filters n = true) :
    process v endV filters dir dp false n s =
      { st := t, code := FunctorCode.CONTINUE, endCode := s.endCode,
        log := s.log ++ [n.data.id],
        curScore := updScore dir n.data s.curScore } ∧
    processList v endV filters FORWARD dp (n :: rest) s =
      processList v endV filters FORWARD dp rest
        (process v endV filters FORWARD dp false n s) ∧
    processM mv dp false n ms =
      { st := mt, code := FunctorCode.CONTINUE,
        log := ms.log ++ [n.data.id],
        curScore := updScore mv.direction n.data ms.curScore } := by
  refine ⟨?_, ?_, ?_⟩
  · rw [process]; simp [hc, callF, hv]
  · rw [processList]; simp [FORWARD, BACKWARD, hf]
  · rw [processM]; simp [hmc, hmv]

theorem c1_witness :
    (let n : Node := .mk { id := 5 } [.mk { id := 6 } []]
     let v : FunctorV (List Nat) :=
       { visit := fun s d => (s ++ [d.id],
           if d.id = 5 then FunctorCode.SIBLINGS else FunctorCode.CONTINUE) }
     let mv : MVisitor (List Nat) :=
       { visit := fun s d => (s ++ [d.id],
           if d.id = 5 then FunctorCode.SIBLINGS else FunctorCode.CONTINUE) }
     let s : TravState (List Nat) := { st := [] }
     let ms : MTravState (List Nat) := { st := [] }
     process v none none FORWARD (-1) false n s =
       { st := [5], code := FunctorCode.CONTINUE, endCode := s.endCode,
         log := [5], curScore := none } ∧
     processList v none none FORWARD (-1) (n :: []) s =
       processList v none none FORWARD (-1) []
         (process v none none FORWARD (-1) false n s) ∧
     processM mv (-1) false n ms =
       { st := [5], code := FunctorCode.CONTINUE, log := [5],
         curScore := none }) := by
  have h := c1_siblings_skips_subtree
    (σ := List Nat) (τ := List Nat)
    { visit := fun s d => (s ++ [d.id],
        if d.id = 5 then FunctorCode.SIBLINGS else FunctorCode.CONTINUE) }
    none none FORWARD (-1) (.mk { id := 5 } [.mk { id := 6 } []]) []
    { st := [] } [5]
    { visit := fun s d => (s ++ [d.id],
        if d.id = 5 then FunctorCode.SIBLINGS else FunctorCode.CONTINUE) }
    { st := [] } [5]
    (by simp) (by simp [Node.data]) (by simp) (by simp [Node.data]) (by simp [filtersApply])
  simpa [Node.data, updScore, FORWARD, BACKWARD] using h

/-- C2: STOP aborts the whole traversal cooperatively.  (1)/(2): the abort
code is checked before visiting any further node — a traversal or child loop
entered with STOP in force returns its state unchanged, so no node ordered
after the STOP point is visited and all visitor effects made so far persist
in the state that is returned normally (no exception path exists in the
embedding).  (3): when the visitor answers STOP on a node, the traversal of
that node returns the post-visit state itself — code still STOP, the log
extended by that node only.  (4): the log of already-visited nodes is always
preserved as a prefix. -/
theorem c2_stop_aborts {σ : Type} (v : FunctorV σ) (endV : Option (FunctorV σ))
    (filters : Option (Node → Bool)) (dir : Bool) (dp : Int) (sf : Bool)
    (n : Node) (cs : List Node) (s : TravState σ) (t : σ) :
    (s.code = FunctorCode.STOP → process v endV filters dir dp sf n s = s) ∧
    (s.code = FunctorCode.STOP → processList v endV filters dir dp cs s = s) ∧
    (s.code ≠ FunctorCode.STOP → v.visit s.st n.data = (t, FunctorCode.STOP) →
      process v none filters dir dp false n s =
        { st := t, code := FunctorCode.STOP, endCode := s.endCode,
          log := s.log ++ [n.data.id],
          curScore := updScore dir n.data s.curScore }) ∧
    (∃ l, (process v endV filters dir dp sf n s).log = s.log ++ l) := by
  refine ⟨fun h => process_stop_frozen v endV filters dir dp sf n s h,
    fun h => processList_stop_frozen v endV filters dir dp cs s h,
    fun hc hv => ?_, process_log_append v endV filters dir n dp sf s⟩
  rw [process]
  simp only [hc, if_false, callF, hv]
  by_cases hdp : (if n.data.isEditorialElement then dp + 1 else dp) = 0
  · simp [hdp, hc, hv]
  · by_cases hskip : skipChildren v.visibleOnly n.data
    · simp [hdp, hskip, hc, hv]
    · simp [hdp, hskip, hc, hv,
        processList_stop_frozen v none filters dir
          ((if n.data.isEditorialElement then dp + 1 else dp) - 1) n.children
          { st := t, code := FunctorCode.STOP, endCode := s.endCode,
            log := s.log ++ [n.data.id],
            curScore := updScore dir n.data s.curScore } rfl]

theorem c2_witness :
    (let n : Node := .mk { id := 3 } [.mk { id := 4 } []]
     let v : FunctorV (List Nat) :=
       { visit := fun s d => (s ++ [d.id], FunctorCode.STOP) }
     let stopped : TravState (List Nat) :=
       { st := [9], code := FunctorCode.STOP, log := [9] }
     let s : TravState (List Nat) := { st := [] }
     process v none none FORWARD (-1) false n stopped = stopped ∧
     processList v none none FORWARD (-1) [n] stopped = stopped ∧
     process v none none FORWARD (-1) false n s =
       { st := [3], code := FunctorCode.STOP, endCode := FunctorCode.CONTINUE,
         log := [3], curScore := none } ∧
     (∃ l, (process v none none FORWARD (-1) false n s).log = s.log ++ l)) := by
  have h1 := c2_stop_aborts (σ := List Nat)
    { visit := fun s d => (s ++ [d.id], FunctorCode.STOP) }
    none none FORWARD (-1) false (.mk { id := 3 } [.mk { id := 4 } []])
    [.mk { id := 3 } [.mk { id := 4 } []]]
    { st := [9], code := FunctorCode.STOP, endCode := FunctorCode.CONTINUE,
      log := [9], curScore := none } [3]
  have h2 := c2_stop_aborts (σ := List Nat)
    { visit := fun s d => (s ++ [d.id], FunctorCode.STOP) }
    none none FORWARD (-1) false (.mk { id := 3 } [.mk { id := 4 } []])
    [.mk { id := 3 } [.mk { id := 4 } []]]
    { st := [], code := FunctorCode.CONTINUE, endCode := FunctorCode.CONTINUE,
      log := [], curScore := none } [3]
  refine ⟨h1.1 rfl, h1.2.1 rfl, ?_, ?_⟩
  · have h3 := h2.2.2.1 (by simp) (by rfl)
    simpa [Node.data, updScore, FORWARD, BACKWARD] using h3
  · simpa using h2.2.2.2

/-! ### Direction lemmas and claim C5 -/

/-- The two direction constants differ. -/
theorem not_forward_backward : ¬ FORWARD = BACKWARD := by decide

/-- Forward visit sequences concatenate over forests. -/
theorem visitIdsList_append (vOnly : Bool) (dp : Int) (l1 l2 : List Node) :
    visitIdsList vOnly none FORWARD dp (l1 ++ l2) =
      visitIdsList vOnly none FORWARD dp l1 ++ visitIdsList vOnly none FORWARD dp l2 := by
  induction l1 with
  | nil => simp [visitIdsList]
  | cons c rest ih =>
    rw [List.cons_append]
    simp only [visitIdsList, not_forward_backward, if_false, ite_false]
    simp [ih]

/-- Backward visit sequences are the forward visit sequences of the
mirrored forest. -/
theorem visitIdsList_backward_mirror (vOnly : Bool) (cs : List Node)
    (ihs : ∀ c ∈ cs, ∀ dp : Int,
      visitIds vOnly none BACKWARD dp c = visitIds vOnly none FORWARD dp (mirror c)) :
    ∀ dp : Int, visitIdsList vOnly none BACKWARD dp cs =
      visitIdsList vOnly none FORWARD dp (mirrorList cs) := by
  induction cs with
  | nil => intro dp; rw [mirrorList]; simp [visitIdsList]
  | cons c rest ih =>
    intro dp
    rw [mirrorList, visitIdsList_append]
    simp only [visitIdsList, if_pos rfl, not_forward_backward, if_false, ite_false,
      filtersApply, ite_true, if_true]
    simp [ih (fun c' hc' => ihs c' (by simp [hc'])) dp, ihs c (by simp) dp]

/-- Backward visit sequence of a node = forward visit sequence of its
mirror image. -/
theorem visitIds_backward_mirror (vOnly : Bool) :
    ∀ (n : Node) (dp : Int),
      visitIds vOnly none BACKWARD dp n = visitIds vOnly none FORWARD dp (mirror n) := by
  apply Node.strongInd
  intro d cs ih dp
  rw [mirror]
  simp only [visitIds]
  rw [visitIdsList_backward_mirror vOnly cs ih]

/-- The two directions visit the same multiset of nodes. -/
theorem visitIds_backward_perm (vOnly : Bool) :
    ∀ (n : Node) (dp : Int),
      (visitIds vOnly none BACKWARD dp n).Perm (visitIds vOnly none FORWARD dp n) := by
  have haux : ∀ (cs : List Node),
      (∀ c ∈ cs, ∀ dp : Int,
        (visitIds vOnly none BACKWARD dp c).Perm (visitIds vOnly none FORWARD dp c)) →
      ∀ dp : Int, (visitIdsList vOnly none BACKWARD dp cs).Perm
        (visitIdsList vOnly none FORWARD dp cs) := by
    intro cs ihs
    induction cs with
    | nil => intro dp; simp [visitIdsList]
    | cons c rest ih =>
      intro dp
      simp only [visitIdsList, if_pos rfl, not_forward_backward, if_false, ite_false,
        filtersApply, ite_true, if_true]
      refine List.Perm.trans List.perm_append_comm ?_
      exact List.Perm.append (ihs c (by simp) dp)
        (ih (fun c' hc' => ihs c' (by simp [hc'])) dp)
  apply Node.strongInd
  intro d cs ih dp
  simp only [visitIds]
  by_cases hdp : (if d.isEditorialElement then dp + 1 else dp) = 0
  · simp [hdp]
  · by_cases hskip : skipChildren vOnly d
    · simp [hdp, hskip]
    · simp only [hdp, hskip, if_false, ite_false]
      exact List.Perm.cons _ (haux cs ih _)

/-- C5 (amended): for a visitor that always answers CONTINUE and no
filters, the backward traversal's visit sequence equals the forward visit
sequence of the mirrored tree — siblings at every level in exactly reversed
order — and the visited multiset is identical for the two directions.
(As stated for arbitrary visitors the claim fails: see the counterexample,
where a STOP visitor makes the two directions visit different node sets.) -/
theorem c5_backward_reverse_perm {σ : Type} (v : FunctorV σ)
    (endV : Option (FunctorV σ)) (dp : Int) (n : Node) (s : TravState σ)
    (hv : ∀ st d, (v.visit st d).2 = FunctorCode.CONTINUE)
    (hs : s.code = FunctorCode.CONTINUE) :
    (process v endV none BACKWARD dp false n s).log =
      (process v endV none FORWARD dp false (mirror n) s).log ∧
    (process v endV none BACKWARD dp false n s).log.Perm
      ((process v endV none FORWARD dp false n s).log) := by
  have hb := process_log_char v endV none BACKWARD hv n dp s hs
  have hf := process_log_char v endV none FORWARD hv (mirror n) dp s hs
  have hf2 := process_log_char v endV none FORWARD hv n dp s hs
  constructor
  · rw [hb.2, hf.2, visitIds_backward_mirror]
  · rw [hb.2, hf2.2]
    exact List.Perm.append_left s.log (visitIds_backward_perm v.visibleOnly n dp)

/-- C5 counterexample: with a visitor that answers STOP on node 1, the
forward traversal of `0 → [1, 2]` visits `[0, 1]` while the backward one
visits `[0, 2, 1]` — the visited multisets of the two directions differ, so
the claim is false for arbitrary visitors. -/
theorem c5_counterexample :
    (let t : Node := .mk { id := 0 } [.mk { id := 1 } [], .mk { id := 2 } []]
     let v : FunctorV (List Nat) :=
       { visit := fun s d =>
           (s ++ [d.id], if d.id = 1 then FunctorCode.STOP else FunctorCode.CONTINUE) }
     let s : TravState (List Nat) := { st := [] }
     (process v none none FORWARD (-1) false t s).log = [0, 1] ∧
     (process v none none BACKWARD (-1) false t s).log = [0, 2, 1] ∧
     ¬ ((process v none none FORWARD (-1) false t s).log.Perm
        ((process v none none BACKWARD (-1) false t s).log))) := by
  refine ⟨?_, ?_, ?_⟩
  · simp [process, processList, callF, updScore, skipChildren, filtersApply,
      FORWARD, BACKWARD, Node.data, Node.children]
  · simp [process, processList, callF, updScore, skipChildren, filtersApply,
      FORWARD, BACKWARD, Node.data, Node.children]
  · intro h
    have hlen := h.length_eq
    simp [process, processList, callF, updScore, skipChildren, filtersApply,
      FORWARD, BACKWARD, Node.data, Node.children] at hlen

theorem c5_witness :
    (let t : Node := .mk { id := 0 } [.mk { id := 1 } [], .mk { id := 2 } []]
     let v : FunctorV (List Nat) :=
       { visit := fun s d => (s ++ [d.id], FunctorCode.CONTINUE) }
     let s : TravState (List Nat) := { st := [] }
     (process v none none BACKWARD (-1) false t s).log =
       (process v none none FORWARD (-1) false (mirror t) s).log ∧
     (process v none none BACKWARD (-1) false t s).log.Perm
       ((process v none none FORWARD (-1) false t s).log)) :=
  c5_backward_reverse_perm
    { visit := fun s d => (s ++ [d.id], FunctorCode.CONTINUE) }
    none (-1) (.mk { id := 0 } [.mk { id := 1 } [], .mk { id := 2 } []])
    { st := [] } (fun _ _ => rfl) rfl

/-! ### Path membership machinery and claims C3, C4 -/

/-- Membership in a forest's id list. -/
theorem mem_allIdsList_iff (cs : List Node) (x : Nat) :
    x ∈ allIdsList cs ↔ ∃ c ∈ cs, x ∈ allIds c := by
  induction cs with
  | nil => rw [allIdsList]; simp
  | cons c rest ih => rw [allIdsList]; simp [ih]

/-- The id of a node addressed by a path occurs in the tree's id list. -/
theorem pathGet_mem_allIds : ∀ (p : List Nat) (t n : Node),
    pathGet p t = some n → n.data.id ∈ allIds t := by
  intro p
  induction p with
  | nil =>
    intro t n h
    rw [pathGet] at h
    cases h
    cases t with
    | mk d cs => rw [allIds]; simp [Node.data]
  | cons i p' ih =>
    intro t n h
    cases t with
    | mk d cs =>
      rw [pathGet] at h
      cases hget : cs[i]? with
      | none => simp [hget] at h
      | some c =>
        simp only [hget] at h
        have hc : c ∈ cs := List.getElem?_mem hget
        have := ih c n h
        rw [allIds]
        simp [mem_allIdsList_iff]
        exact Or.inr ⟨c, hc, this⟩

/-- Every visited id is an id of the tree. -/
theorem visitIds_subset_allIds (vOnly : Bool) (filters : Option (Node → Bool))
    (dir : Bool) :
    ∀ (n : Node) (dp : Int) (x : Nat),
      x ∈ visitIds vOnly filters dir dp n → x ∈ allIds n := by
  have haux : ∀ (cs : List Node),
      (∀ c ∈ cs, ∀ (dp : Int) (x : Nat), x ∈ visitIds vOnly filters dir dp c → x ∈ allIds c) →
      ∀ (dp : Int) (x : Nat), x ∈ visitIdsList vOnly filters dir dp cs → x ∈ allIdsList cs := by
    intro cs ihs
    induction cs with
    | nil => intro dp x h; rw [visitIdsList] at h; simp at h
    | cons c rest ih =>
      intro dp x h
      rw [visitIdsList] at h
      rw [allIdsList]
      have hrest := ih (fun c' hc' => ihs c' (by simp [hc'])) dp x
      have hcm := ihs c (by simp) dp x
      rw [List.mem_append]
      by_cases hdir : dir = BACKWARD
      · rw [if_pos hdir] at h
        rcases List.mem_append.mp h with h | h
        · exact Or.inr (hrest h)
        · by_cases hf : filtersApply filters c
          · rw [if_pos hf] at h; exact Or.inl (hcm h)
          · rw [if_neg hf] at h; simp at h
      · rw [if_neg hdir] at h
        rcases List.mem_append.mp h with h | h
        · by_cases hf : filtersApply filters c
          · rw [if_pos hf] at h; exact Or.inl (hcm h)
          · rw [if_neg hf] at h; simp at h
        · exact Or.inr (hrest h)
  apply Node.strongInd
  intro d cs ih dp x h
  rw [visitIds] at h
  rw [allIds]
  simp only [List.mem_cons] at h ⊢
  rcases h with h | h
  · exact Or.inl h
  · right
    by_cases hdp : (if d.isEditorialElement then dp + 1 else dp) = 0
    · simp [hdp] at h
    · by_cases hskip : skipChildren vOnly d
      · simp [hdp, hskip] at h
      · simp only [hdp, hskip, if_false, ite_false] at h
        exact haux cs ih _ x h

/-- Membership in the visit sequence of a forest, without filters. -/
theorem mem_visitIdsList_iff (vOnly : Bool) (dir : Bool) (dp : Int)
    (cs : List Node) (x : Nat) :
    x ∈ visitIdsList vOnly none dir dp cs ↔
      ∃ c ∈ cs, x ∈ visitIds vOnly none dir dp c := by
  induction cs with
  | nil => rw [visitIdsList]; simp
  | cons c rest ih =>
    rw [visitIdsList]
    by_cases hdir : dir = BACKWARD
    · rw [if_pos hdir]
      simp [filtersApply, List.mem_append, ih, or_comm]
    · rw [if_neg hdir]
      simp [filtersApply, List.mem_append, ih]
/-- A child's id list inherits Nodup from the forest's id list. -/
theorem nodup_allIds_child (cs : List Node) (c : Node)
    (hnd : (allIdsList cs).Nodup) (hc : c ∈ cs) : (allIds c).Nodup := by
  induction cs with
  | nil => cases hc
  | cons a rest ih =>
    rw [allIdsList] at hnd
    obtain ⟨h1, h2, -⟩ := List.nodup_append.mp hnd
    rcases List.mem_cons.mp hc with h | h
    · exact h ▸ h1
    · exact ih h2 h

/-- Under a Nodup forest id list, an id occurring in two member trees forces
the two members to be equal. -/
theorem allIds_disjoint_unique (cs : List Node) (c c' : Node) (x : Nat)
    (hnd : (allIdsList cs).Nodup) (hc : c ∈ cs) (hc' : c' ∈ cs)
    (hx : x ∈ allIds c) (hx' : x ∈ allIds c') : c = c' := by
  induction cs with
  | nil => cases hc
  | cons a rest ih =>
    rw [allIdsList] at hnd
    obtain ⟨h1, h2, hdisj⟩ := List.nodup_append.mp hnd
    rcases List.mem_cons.mp hc with h | h <;> rcases List.mem_cons.mp hc' with h' | h'
    · rw [h, h']
    · exact absurd ((mem_allIdsList_iff rest x).mpr ⟨c', h', hx'⟩) (hdisj (h ▸ hx))
    · exact absurd ((mem_allIdsList_iff rest x).mpr ⟨c, h, hx⟩) (hdisj (h' ▸ hx'))
    · exact ih h2 h h'

/-- Depth-limited reachability through wrappers: with everything else
unrestricted, the node at a path is visited under budget `L ≥ 0` iff its
number of non-wrapper ancestors within the subtree is at most `L`. -/
theorem visitIds_mem_iff (dir : Bool) : ∀ (p : List Nat) (t n : Node) (L : Int),
    0 ≤ L → (allIds t).Nodup → pathGet p t = some n →
    (n.data.id ∈ visitIds false none dir L t ↔ (countNonWrapper p t : Int) ≤ L) := by
  intro p
  induction p with
  | nil =>
    intro t n L hL hnd hp
    rw [pathGet] at hp
    cases hp
    rw [countNonWrapper]
    cases t with
    | mk d cs =>
      rw [visitIds]
      refine iff_of_true (by simp [Node.data]) (by simpa using hL)
  | cons i p' ih =>
    intro t n L hL hnd hp
    cases t with
    | mk d cs =>
      rw [pathGet] at hp
      cases hget : cs[i]? with
      | none => simp [hget] at hp
      | some c =>
        simp only [hget] at hp
        have hc : c ∈ cs := List.getElem?_mem hget
        rw [allIds] at hnd
        obtain ⟨hdnotin, hndl⟩ := List.nodup_cons.mp hnd
        have hnidc : n.data.id ∈ allIds c := pathGet_mem_allIds p' c n hp
        have hne : n.data.id ≠ d.id := by
          intro he
          exact hdnotin (he ▸ (mem_allIdsList_iff cs n.data.id).mpr ⟨c, hc, hnidc⟩)
        have hsk : skipChildren false d = false := rfl
        rw [visitIds, countNonWrapper]
        simp only [hget, List.mem_cons, hne, false_or, hsk, Bool.false_eq_true, ite_false]
        have hmem : ∀ (M : Int),
            n.data.id ∈ visitIdsList false none dir M cs ↔
              n.data.id ∈ visitIds false none dir M c := by
          intro M
          rw [mem_visitIdsList_iff]
          constructor
          · rintro ⟨c', hc', hm⟩
            have : c' = c := allIds_disjoint_unique cs c' c n.data.id hndl hc' hc
              (visitIds_subset_allIds false none dir c' M n.data.id hm) hnidc
            exact this ▸ hm
          · intro hm; exact ⟨c, hc, hm⟩
        by_cases hed : d.isEditorialElement
        · have hLp : ¬ (L + 1 = 0) := by omega
          simp only [hed, if_true, ite_true, hLp, if_false, ite_false, hsk,
            Bool.false_eq_true]
          rw [show L + 1 - 1 = L by omega]
          rw [hmem, ih c n L hL (nodup_allIds_child cs c hndl hc) hp]
          push_cast
          omega
        · simp only [hed, if_false, Bool.false_eq_true, ite_false]
          by_cases hL0 : L = 0
          · subst hL0
            simp only [if_pos rfl]
            refine iff_of_false (by simp) ?_
            push_cast
            omega
          · simp only [hL0, if_false, ite_false, hsk, Bool.false_eq_true]
            rw [hmem, ih c n (L - 1) (by omega) (nodup_allIds_child cs c hndl hc) hp]
            push_cast
            omega
/-- C3: wrapper transparency of the depth budget.  For an otherwise
unrestricted traversal (no filters, visibility filter off, always-CONTINUE
visitor) with depth limit `L ≥ 0`, the node addressed by a path below the
traversal root is visited iff its number of non-wrapper (non-editorial)
proper ancestors within the traversed subtree — the root counts, wrappers
never do — is at most `L`. -/
theorem c3_wrapper_transparency {σ : Type} (v : FunctorV σ)
    (endV : Option (FunctorV σ)) (dir : Bool) (L : Int) (p : List Nat)
    (t n : Node) (s : TravState σ)
    (hv : ∀ st d, (v.visit st d).2 = FunctorCode.CONTINUE)
    (hvo : v.visibleOnly = false)
    (hL : 0 ≤ L) (hnd : (allIds t).Nodup) (hp : pathGet p t = some n)
    (hs : s.code = FunctorCode.CONTINUE) (hsl : s.log = []) :
    n.data.id ∈ (process v endV none dir L false t s).log ↔
      (countNonWrapper p t : Int) ≤ L := by
  rw [(process_log_char v endV none dir hv t L s hs).2, hsl, hvo]
  simpa using visitIds_mem_iff dir p t n L hL hnd hp

theorem c3_witness :
    (let t : Node := .mk { id := 0, isEditorialElement := true }
       [.mk { id := 1 } [.mk { id := 2, isEditorialElement := true }
         [.mk { id := 3 } []]]]
     let n : Node := .mk { id := 3 } []
     let v : FunctorV (List Nat) :=
       { visit := fun s d => (s ++ [d.id], FunctorCode.CONTINUE), visibleOnly := false }
     let s : TravState (List Nat) := { st := [] }
     (n.data.id ∈ (process v none none FORWARD 1 false t s).log ↔
       (countNonWrapper [0, 0, 0] t : Int) ≤ 1)) := by
  have h := c3_wrapper_transparency (σ := List Nat)
    { visit := fun s d => (s ++ [d.id], FunctorCode.CONTINUE), visibleOnly := false }
    none FORWARD 1 [0, 0, 0]
    (.mk { id := 0, isEditorialElement := true }
      [.mk { id := 1 } [.mk { id := 2, isEditorialElement := true }
        [.mk { id := 3 } []]]])
    (.mk { id := 3 } []) { st := [] }
    (fun _ _ => rfl) rfl (by omega)
    (by simp [allIds, allIdsList])
    (by simp [pathGet])
    rfl rfl
  exact h
/-- With a budget at most −2, or −1 at a non-wrapper root, the depth check
never fires: the traversal visits exactly the ids of the tree. -/
theorem visitIds_unbounded (dir : Bool) :
    ∀ (t : Node) (L : Int),
      (L ≤ -2 ∨ (L = -1 ∧ t.data.isEditorialElement = false)) →
      ∀ x, x ∈ visitIds false none dir L t ↔ x ∈ allIds t := by
  apply Node.strongInd
  intro d cs ih L hLh x
  rw [visitIds, allIds]
  have hLp : ¬ ((if d.isEditorialElement then L + 1 else L) = 0) := by
    rcases hLh with h | ⟨h1, h2⟩
    · by_cases hed : d.isEditorialElement <;> simp [hed] <;> omega
    · simp [Node.data] at h2
      simp [h2, h1]
  have hsk : skipChildren false d = false := rfl
  simp only [hLp, ite_false, if_false, hsk, Bool.false_eq_true, List.mem_cons]
  have hchild : (if d.isEditorialElement then L + 1 else L) - 1 ≤ -2 := by
    rcases hLh with h | ⟨h1, h2⟩
    · by_cases hed : d.isEditorialElement <;> simp [hed] <;> omega
    · simp [Node.data] at h2
      simp [h2, h1]
  rw [mem_visitIdsList_iff, mem_allIdsList_iff]
  constructor
  · rintro (h | ⟨c, hc, hm⟩)
    · exact Or.inl h
    · exact Or.inr ⟨c, hc, (ih c hc _ (Or.inl hchild) x).mp hm⟩
  · rintro (h | ⟨c, hc, hm⟩)
    · exact Or.inl h
    · exact Or.inr ⟨c, hc, (ih c hc _ (Or.inl hchild) x).mpr hm⟩

/-- C4 (amended): for an otherwise unrestricted always-CONTINUE traversal,
a depth limit at most −2 — or −1 when the root is not a wrapper — is
unbounded: the set of visited ids is the whole tree.  A limit of 0 visits
only the root when the root is not a wrapper.  (As stated the claim fails
on wrapper roots, where the budget is first incremented: see the
counterexample — with limit −1 a wrapper root's budget becomes 0 and its
children are never visited, and with limit 0 a wrapper root's children are
visited.) -/
theorem c4_depth_limit {σ : Type} (v : FunctorV σ) (endV : Option (FunctorV σ))
    (dir : Bool) (L : Int) (t : Node) (s : TravState σ)
    (hv : ∀ st d, (v.visit st d).2 = FunctorCode.CONTINUE)
    (hvo : v.visibleOnly = false)
    (hs : s.code = FunctorCode.CONTINUE) :
    ((L ≤ -2 ∨ (L = -1 ∧ t.data.isEditorialElement = false)) →
      ∀ x, x ∈ (process v endV none dir L false t s).log ↔
        x ∈ s.log ∨ x ∈ allIds t) ∧
    (t.data.isEditorialElement = false →
      (process v endV none dir 0 false t s).log = s.log ++ [t.data.id]) := by
  constructor
  · intro hL x
    rw [(process_log_char v endV none dir hv t L s hs).2, hvo]
    rw [List.mem_append, visitIds_unbounded dir t L hL x]
  · intro hed
    rw [(process_log_char v endV none dir hv t 0 s hs).2, hvo]
    cases t with
    | mk d cs =>
      simp only [Node.data] at hed
      rw [visitIds]
      simp [hed, Node.data]

/-- C4 counterexample: with depth limit −1 on a wrapper (editorial) root,
the budget is incremented to 0 before descending, so the root's child (true
depth 1) is never visited — −1 is not unbounded descent.  Dually, with
depth limit 0 on the same wrapper root the child IS visited, so 0 does not
visit only the root. -/
theorem c4_counterexample :
    (let t : Node := .mk { id := 0, isEditorialElement := true } [.mk { id := 1 } []]
     let v : FunctorV (List Nat) :=
       { visit := fun s d => (s ++ [d.id], FunctorCode.CONTINUE), visibleOnly := false }
     let s : TravState (List Nat) := { st := [] }
     (process v none none FORWARD (-1) false t s).log = [0] ∧
     1 ∈ allIds t ∧
     ¬ (1 ∈ (process v none none FORWARD (-1) false t s).log) ∧
     (process v none none FORWARD 0 false t s).log = [0, 1]) := by
  refine ⟨?_, ?_, ?_, ?_⟩
  · simp [process, processList, callF, updScore, skipChildren, filtersApply,
      FORWARD, BACKWARD, Node.data, Node.children]
  · simp [allIds, allIdsList]
  · simp [process, processList, callF, updScore, skipChildren, filtersApply,
      FORWARD, BACKWARD, Node.data, Node.children]
  · simp [process, processList, callF, updScore, skipChildren, filtersApply,
      FORWARD, BACKWARD, Node.data, Node.children]

theorem c4_witness :
    (let t : Node := .mk { id := 0 } [.mk { id := 1 } [.mk { id := 2 } []]]
     let v : FunctorV (List Nat) :=
       { visit := fun s d => (s ++ [d.id], FunctorCode.CONTINUE), visibleOnly := false }
     let s : TravState (List Nat) := { st := [] }
     (∀ x, x ∈ (process v none none FORWARD (-1) false t s).log ↔
        x ∈ ([] : List Nat) ∨ x ∈ allIds t) ∧
     (process v none none FORWARD 0 false t s).log = [0]) := by
  have h := c4_depth_limit (σ := List Nat)
    { visit := fun s d => (s ++ [d.id], FunctorCode.CONTINUE), visibleOnly := false }
    none FORWARD (-1)
    (.mk { id := 0 } [.mk { id := 1 } [.mk { id := 2 } []]])
    { st := [] } (fun _ _ => rfl) rfl rfl
  exact ⟨fun x => h.1 (Or.inr ⟨rfl, rfl⟩) x, by simpa using h.2 rfl⟩

/-! ### Cached List Projection (`ObjectListInterface`) -/

mutual

/-- All node data of the tree in document order. -/
def allDatas : Node → List NodeData
  | .mk d cs => d :: allDatasList cs
termination_by n => sizeOf n
decreasing_by
  · simp only [Node.mk.sizeOf_spec]; omega

/-- All node data of a forest in document order. -/
def allDatasList : List Node → List NodeData
  | [] => []
  | c :: rest => allDatas c ++ allDatasList rest
termination_by cs => sizeOf cs
decreasing_by
  all_goals simp only [List.cons.sizeOf_spec]
  all_goals omega

end

/-- Membership in a forest's data list. -/
theorem mem_allDatasList_iff (cs : List Node) (x : NodeData) :
    x ∈ allDatasList cs ↔ ∃ c ∈ cs, x ∈ allDatas c := by
  induction cs with
  | nil => rw [allDatasList]; simp
  | cons c rest ih => rw [allDatasList]; simp [ih]

/-- `Object::AddLayerElementToFlatList` wrapped in a `Functor`
(`Object::FillFlatList`): appends every visited node to the shared flat
list and continues; the `Functor` constructor leaves `m_visibleOnly` at its
default `true`. -/
def addToFlatListV : FunctorV (List Nat) :=
  { visit := fun s d => (s ++ [d.id], FunctorCode.CONTINUE), visibleOnly := true }

/-- Modelled from the spec: the defaulted `deepness` argument of
`Object::Process` is declared in the missing header; the spec fixes −1 as
the unbounded depth value. -/
def unlimitedDepth : Int := -1

/-- `Object::FillFlatList`: one defaulted `Process` pass collecting every
visited node into the functor params' flat list. -/
def fillFlatList (t : Node) : List Nat :=
  (process addToFlatListV none none FORWARD unlimitedDepth false t
    { st := [] }).st

/-- The state of a node owning a cached flattened list: the owner's subtree,
the owner's `m_isModified` flag, and `ObjectListInterface::m_list`. -/
structure ListOwner where
  node : Node
  isModified : Bool
  list : List Nat

/-- `ObjectListInterface::ResetList`: nothing to do unless the owner is
modified; otherwise clear the flag (`Modify(false)` does not propagate),
collect with one `FillFlatList` pass and apply the subclass filter
(`FilterList`, modelled as one predicate pass) once.  The second component
counts rebuilds (0 or 1). -/
def resetList (P : Nat → Bool) (o : ListOwner) : ListOwner × Nat :=
  if !o.isModified then (o, 0)
  else ({ o with isModified := false, list := (fillFlatList o.node).filter P }, 1)

/-- A structural mutation of the owner: `Object::AddChild` on the supported
path appends the child and calls `Modify`, which sets the owner's
`m_isModified` flag. -/
def structuralMutation (o : ListOwner) (c : Node) : ListOwner :=
  { o with node := .mk o.node.data (o.node.children ++ [c]), isModified := true }

/-- For an append-collecting visitor, the child loop accumulates exactly
the visit sequence into the shared flat list. -/
theorem processList_collect_st_aux (v : FunctorV (List Nat))
    (filters : Option (Node → Bool)) (dir : Bool)
    (hv : ∀ s d, v.visit s d = (s ++ [d.id], FunctorCode.CONTINUE))
    (cs : List Node)
    (ihs : ∀ c ∈ cs, ∀ (dp : Int) (s : TravState (List Nat)),
      s.code = FunctorCode.CONTINUE →
      (process v none filters dir dp false c s).code = FunctorCode.CONTINUE ∧
      (process v none filters dir dp false c s).st =
        s.st ++ visitIds v.visibleOnly filters dir dp c) :
    ∀ (dp : Int) (s : TravState (List Nat)), s.code = FunctorCode.CONTINUE →
      (processList v none filters dir dp cs s).code = FunctorCode.CONTINUE ∧
      (processList v none filters dir dp cs s).st =
        s.st ++ visitIdsList v.visibleOnly filters dir dp cs := by
  induction cs with
  | nil => intro dp s hs; rw [processList, visitIdsList]; simp [hs]
  | cons c rest ih =>
    intro dp s hs
    have ihc := ihs c (by simp)
    have ihrest := ih (fun c' hc' => ihs c' (by simp [hc']))
    rw [processList, visitIdsList]
    by_cases hdir : dir = BACKWARD
    · subst hdir
      simp only [if_true]
      obtain ⟨h1, h2⟩ := ihrest dp s hs
      by_cases hf : filtersApply filters c
      · obtain ⟨h3, h4⟩ := ihc dp _ h1
        simp [hf, h3, h4, h2, List.append_assoc]
      · simp [hf, h1, h2]
    · simp only [hdir, if_false]
      by_cases hf : filtersApply filters c
      · obtain ⟨h1, h2⟩ := ihc dp s hs
        obtain ⟨h3, h4⟩ := ihrest dp _ h1
        simp [hf, h1, h2, h3, h4]
      · obtain ⟨h3, h4⟩ := ihrest dp s hs
        simp [hf, h3, h4]

/-- For an append-collecting visitor, `Process` accumulates exactly the
visit sequence into the shared flat list. -/
theorem process_collect_st (v : FunctorV (List Nat))
    (filters : Option (Node → Bool)) (dir : Bool)
    (hv : ∀ s d, v.visit s d = (s ++ [d.id], FunctorCode.CONTINUE)) :
    ∀ (n : Node) (dp : Int) (s : TravState (List Nat)),
      s.code = FunctorCode.CONTINUE →
      (process v none filters dir dp false n s).code = FunctorCode.CONTINUE ∧
      (process v none filters dir dp false n s).st =
        s.st ++ visitIds v.visibleOnly filters dir dp n := by
  apply Node.strongInd
  intro d cs ih dp s hs
  rw [process, visitIds]
  simp only [hs, callF, Node.data, Node.children, hv]
  by_cases hdp : (if d.isEditorialElement then dp + 1 else dp) = 0
  · simp [hdp, hs, hv]
  · by_cases hskip : skipChildren v.visibleOnly d
    · simp [hdp, hskip, hs, hv]
    · have hlist := processList_collect_st_aux v filters dir hv cs ih
        ((if d.isEditorialElement then dp + 1 else dp) - 1)
        { st := s.st ++ [d.id], code := FunctorCode.CONTINUE,
          endCode := s.endCode, log := s.log ++ [d.id],
          curScore := updScore dir d s.curScore } rfl
      simp only [hdp, hskip] at hlist ⊢
      simp [hdp, hskip, hs, hv]
      simp at hlist
      simp [hlist.1, hlist.2]

/-- With the visibility filter on but no hidden content, and a budget of
−2 or less (or −1 at a non-wrapper root), the forward visit sequence is the
full document-order id list. -/
theorem visitIds_forward_full :
    ∀ (t : Node) (L : Int),
      (∀ d ∈ allDatas t, skipChildren true d = false) →
      (L ≤ -2 ∨ (L = -1 ∧ t.data.isEditorialElement = false)) →
      visitIds true none FORWARD L t = allIds t := by
  apply Node.strongInd
  intro d cs ih L hsk hLh
  rw [visitIds, allIds]
  have hLp : ¬ ((if d.isEditorialElement then L + 1 else L) = 0) := by
    rcases hLh with h | ⟨h1, h2⟩
    · by_cases hed : d.isEditorialElement <;> simp [hed] <;> omega
    · simp [Node.data] at h2
      simp [h2, h1]
  have hskd : skipChildren true d = false := by
    apply hsk
    rw [allDatas]
    simp
  have hchild : (if d.isEditorialElement then L + 1 else L) - 1 ≤ -2 := by
    rcases hLh with h | ⟨h1, h2⟩
    · by_cases hed : d.isEditorialElement <;> simp [hed] <;> omega
    · simp [Node.data] at h2
      simp [h2, h1]
  simp only [hLp, ite_false, if_false, hskd, Bool.false_eq_true, List.cons.injEq, true_and]
  have : ∀ cs', (∀ c ∈ cs', c ∈ cs) →
      visitIdsList true none FORWARD ((if d.isEditorialElement then L + 1 else L) - 1) cs' =
        allIdsList cs' := by
    intro cs' hsub
    induction cs' with
    | nil => rw [visitIdsList, allIdsList]
    | cons c rest ihr =>
      rw [visitIdsList, allIdsList]
      rw [if_neg not_forward_backward]
      have hcin := hsub c (by simp)
      have hskc : ∀ d' ∈ allDatas c, skipChildren true d' = false := by
        intro d' hd'
        apply hsk
        rw [allDatas]
        simp only [List.mem_cons]
        right
        exact (mem_allDatasList_iff cs d').mpr ⟨c, hcin, hd'⟩
      simp [filtersApply, ih c hcin _ hskc (Or.inl hchild),
        ihr (fun c' hc' => hsub c' (by simp [hc']))]
  exact this cs (fun c h => h)

/-- C6 (amended): the cached flattened list is rebuilt lazily.  A read after
a read performs no rebuild and returns the identical list (the state is
unchanged); one structural mutation sets the owner's dirty flag, and the
next read performs exactly one rebuild — clearing the flag, collecting with
one unlimited-depth `FillFlatList` pass, then filtering once.  The rebuild
pass runs with the visibility filter on (the `Functor` default), so it
collects every descendant on trees with no hidden wrapper/Mdiv/system
content and a non-wrapper owner (last conjunct); with hidden content some
descendants are omitted (see the counterexample). -/
theorem c6_cached_list_rebuild (P : Nat → Bool) (o : ListOwner) (c t : Node)
    (hsk : ∀ d ∈ allDatas t, skipChildren true d = false)
    (hed : t.data.isEditorialElement = false) :
    (resetList P (resetList P o).1).2 = 0 ∧
    (resetList P (resetList P o).1).1 = (resetList P o).1 ∧
    (structuralMutation o c).isModified = true ∧
    (resetList P (structuralMutation o c)).2 = 1 ∧
    (resetList P (structuralMutation o c)).1.isModified = false ∧
    (resetList P (structuralMutation o c)).1.list =
      (fillFlatList (structuralMutation o c).node).filter P ∧
    fillFlatList t = allIds t := by
  refine ⟨?_, ?_, rfl, rfl, rfl, rfl, ?_⟩
  · by_cases hm : o.isModified <;> simp [resetList, hm]
  · by_cases hm : o.isModified <;> simp [resetList, hm]
  · rw [fillFlatList]
    have h := process_collect_st addToFlatListV none FORWARD
      (fun _ _ => rfl) t unlimitedDepth { st := [] } rfl
    rw [h.2]
    have : addToFlatListV.visibleOnly = true := rfl
    rw [this]
    rw [visitIds_forward_full t unlimitedDepth hsk (Or.inr ⟨rfl, hed⟩)]
    simp

/-- C6 counterexample to the "collecting every descendant" parenthetical:
the rebuild pass runs with the visibility filter on, so a descendant below
a hidden editorial wrapper is not collected. -/
theorem c6_counterexample :
    (let o : ListOwner :=
       { node := .mk { id := 0 }
           [.mk { id := 1, isEditorialElement := true, hidden := true }
             [.mk { id := 2 } []]],
         isModified := true, list := [] }
     let P : Nat → Bool := fun _ => true
     (resetList P o).2 = 1 ∧
     (resetList P o).1.list = [0, 1] ∧
     2 ∈ allIds o.node ∧
     2 ∉ (resetList P o).1.list) := by
  refine ⟨rfl, ?_, ?_, ?_⟩
  · simp [resetList, fillFlatList, process, processList, callF, updScore,
      skipChildren, filtersApply, FORWARD, BACKWARD, unlimitedDepth,
      addToFlatListV, Node.data, Node.children]
  · simp [allIds, allIdsList]
  · simp [resetList, fillFlatList, process, processList, callF, updScore,
      skipChildren, filtersApply, FORWARD, BACKWARD, unlimitedDepth,
      addToFlatListV, Node.data, Node.children]

theorem c6_witness :
    (let o : ListOwner :=
       { node := .mk { id := 0 } [], isModified := true, list := [] }
     let P : Nat → Bool := fun _ => true
     let c : Node := .mk { id := 5 } []
     let t : Node := .mk { id := 7 } [.mk { id := 8 } []]
     (resetList P (resetList P o).1).2 = 0 ∧
     (resetList P (resetList P o).1).1 = (resetList P o).1 ∧
     (structuralMutation o c).isModified = true ∧
     (resetList P (structuralMutation o c)).2 = 1 ∧
     (resetList P (structuralMutation o c)).1.isModified = false ∧
     (resetList P (structuralMutation o c)).1.list =
       (fillFlatList (structuralMutation o c).node).filter P ∧
     fillFlatList t = allIds t) := by
  have h := c6_cached_list_rebuild (fun _ => true)
    { node := .mk { id := 0 } [], isModified := true, list := [] }
    (.mk { id := 5 } []) (.mk { id := 7 } [.mk { id := 8 } []])
    (by intro d hd
        rw [allDatas] at hd
        simp only [allDatasList, allDatas, List.mem_cons, List.not_mem_nil,
          or_false, List.append_nil, List.nil_append] at hd
        rcases hd with rfl | rfl <;> rfl)
    rfl
  exact h

/-! ### Ownership operations (`Object` records with parent pointers)

For the reparenting and teardown claims the relevant state is the flat view
of objects: ids, parent back-references and child-id sequences.  A store is
the list of live objects; `delete` removes an object from the store. -/

structure OwnObj where
  id : Nat
  className : String := ""
  parent : Option Nat := none
  children : List Nat := []
  isModified : Bool := false
  isReferenceObject : Bool := false
deriving DecidableEq, Repr

/-- Dereference an object id in the store. -/
def findObj (st : List OwnObj) (i : Nat) : Option OwnObj :=
  st.find? (fun o => o.id == i)

/-- Update the object with the given id in place. -/
def updObj (st : List OwnObj) (i : Nat) (f : OwnObj → OwnObj) : List OwnObj :=
  st.map (fun o => if o.id == i then f o else o)

/-- `Object::IsSupportedChild` base implementation: logs a debug message and
rejects (concrete classes override it). -/
def isSupportedChildDefault (_parent _child : OwnObj) : Bool := false

/-- `Object::AddChild` on a parent/child pair, parameterized by the virtual
is-supported-child check.  The check is consulted unless the pair is the
allowed Staff-into-Section exception; rejection is a logged no-op.  On the
append path the child's parent is set, the child id is appended and the
parent is marked modified (`Modify`; ancestor propagation is outside this
flat view).  The third component tells whether the append happened. -/
def addChild (isSupportedChild : OwnObj → OwnObj → Bool) (p c : OwnObj) :
    OwnObj × OwnObj × Bool :=
  if ¬ (c.className = "Staff" ∧ p.className = "Section") ∧ ¬ isSupportedChild p c
  then (p, c, false)
  else ({ p with children := p.children ++ [c.id], isModified := true },
        { c with parent := some p.id }, true)

/-- `Object::Relinquish`: out-of-range index yields NULL; otherwise the
child's parent pointer is reset and the child is returned — it stays in the
parent's child sequence. -/
def relinquish (st : List OwnObj) (pId idx : Nat) : List OwnObj × Option Nat :=
  match findObj st pId with
  | none => (st, none)
  | some p =>
    match p.children[idx]? with
    | none => (st, none)
    | some cId => (updObj st cId (fun c => { c with parent := none }), some cId)

/-- `Object::SetParent` (asserts the child currently has no parent). -/
def setParent (st : List OwnObj) (cId pId : Nat) : List OwnObj :=
  updObj st cId (fun c => { c with parent := some pId })

/-- `vector::insert` at an index, `push_back` when the index is past the
end, as in `Object::InsertChild`. -/
def insertAt (l : List Nat) (idx : Nat) (x : Nat) : List Nat :=
  if l.length ≤ idx then l ++ [x]
  else l.take idx ++ [x] ++ l.drop idx

/-- `Object::InsertChild` (requires the child's parent be already set to
this object). -/
def insertChild (st : List OwnObj) (pId cId : Nat) (idx : Nat) : List OwnObj :=
  updObj st pId (fun p => { p with children := insertAt p.children idx cId })

/-- `Object::ClearRelinquishedChildren`: erase from the sequence the
children whose parent pointer no longer points at this object. -/
def clearRelinquishedChildren (st : List OwnObj) (pId : Nat) : List OwnObj :=
  updObj st pId (fun p =>
    let kept := p.children.filter (fun cId =>
      match findObj st cId with
      | some c => c.parent == some pId
      | none => false)
    { p with children := kept })

/-- `Object::ClearChildren`: a reference object abandons its children
(sequence cleared, nothing deleted); otherwise every child whose parent
pointer still equals this object is deleted (removed from the store), and
the sequence is cleared.  A child relinquished beforehand is removed from
the sequence without being deleted. -/
def clearChildren (st : List OwnObj) (pId : Nat) : List OwnObj :=
  match findObj st pId with
  | none => st
  | some p =>
    if p.isReferenceObject then
      updObj st pId (fun o => { o with children := [] })
    else
      (st.filter (fun o => ¬ (p.children.filter (fun cId =>
          match findObj st cId with
          | some c => c.parent == some pId
          | none => false)).contains o.id)).map
        (fun o => if o.id == pId then { o with children := [] } else o)

/-- `Object::~Object` runs `ClearChildren` (the object itself is freed by
its owner). -/
def objectDestructor (st : List OwnObj) (pId : Nat) : List OwnObj :=
  clearChildren st pId

/-- C7 (amended): rejection by the is-supported-child check makes
`AddChild` a logged no-op — parent's child sequence and child's parent
pointer unchanged — and the gate applies to every append EXCEPT the
explicit Staff-into-Section allowance, which appends without consulting the
check (see the counterexample). -/
theorem c7_add_child_gate (f : OwnObj → OwnObj → Bool) (p c : OwnObj) :
    (¬ (c.className = "Staff" ∧ p.className = "Section") → f p c = false →
      addChild f p c = (p, c, false)) ∧
    (c.className = "Staff" → p.className = "Section" →
      addChild f p c =
        ({ p with children := p.children ++ [c.id], isModified := true },
         { c with parent := some p.id }, true)) := by
  constructor
  · intro hns hrej
    rw [addChild, if_pos ⟨hns, by simp [hrej]⟩]
  · intro hcs hps
    rw [addChild, if_neg (by simp [hcs, hps])]

/-- C7 counterexample to "this gate applies to every append": a Staff child
added to a Section parent is appended even though the supported-child check
(here the always-rejecting base implementation) rejects it. -/
theorem c7_counterexample :
    (let p : OwnObj := { id := 0, className := "Section" }
     let c : OwnObj := { id := 1, className := "Staff" }
     isSupportedChildDefault p c = false ∧
     addChild isSupportedChildDefault p c =
       ({ p with children := [1], isModified := true },
        { c with parent := some 0 }, true)) := by
  exact ⟨rfl, by simp [addChild, isSupportedChildDefault]⟩

theorem c7_witness :
    (let p : OwnObj := { id := 0, className := "Measure" }
     let c : OwnObj := { id := 1, className := "Staff" }
     addChild isSupportedChildDefault p c = (p, c, false)) := by
  have h := (c7_add_child_gate isSupportedChildDefault
    { id := 0, className := "Measure" } { id := 1, className := "Staff" }).1
    (by simp) rfl
  exact h

/-- C8 (amended): relinquish-and-reinsert.  Relinquishing P's child at
index 0 resets the child's parent but leaves it in P's sequence; after
reinsertion into Q at index 0 the child's parent is Q and Q's child count
has increased by one, while P's child count is UNCHANGED — it decreases by
one only once `ClearRelinquishedChildren` prunes the stale entry. -/
theorem c8_relinquish_reinsert (p q c : OwnObj)
    (hpq : p.id ≠ q.id) (hpc : p.id ≠ c.id) (hqc : q.id ≠ c.id)
    (hch : p.children = [c.id]) (hcp : c.parent = some p.id) :
    (relinquish [p, q, c] p.id 0).2 = some c.id ∧
    (let st3 := insertChild
        (setParent (relinquish [p, q, c] p.id 0).1 c.id q.id) q.id c.id 0
     findObj st3 c.id = some { c with parent := some q.id } ∧
     (findObj st3 q.id).map (fun o => o.children.length) =
       some (q.children.length + 1) ∧
     (findObj st3 p.id).map (fun o => o.children.length) =
       some (p.children.length) ∧
     (findObj (clearRelinquishedChildren st3 p.id) p.id).map
        (fun o => o.children.length) = some (p.children.length - 1)) := by
  have hpq' := Ne.symm hpq
  have hpc' := Ne.symm hpc
  have hqc' := Ne.symm hqc
  have b1 : (p.id == c.id) = false := by simp [hpc]
  have b2 : (q.id == c.id) = false := by simp [hqc]
  have b3 : (c.id == c.id) = true := by simp
  have b4 : (p.id == q.id) = false := by simp [hpq]
  have b5 : (q.id == q.id) = true := by simp
  have b6 : (c.id == q.id) = false := by simp [hqc']
  have b7 : (p.id == p.id) = true := by simp
  have b8 : (q.id == p.id) = false := by simp [hpq']
  have b9 : (c.id == p.id) = false := by simp [hpc']
  constructor
  · simp [relinquish, findObj, List.find?, hch]
  · by_cases hqe : q.children = [] <;>
      simp [relinquish, findObj, setParent, insertChild, insertAt,
        clearRelinquishedChildren, updObj, List.find?, hch, hcp, hqe,
        hpq, hpc, hqc, hpq', hpc', hqc', b1, b2, b3, b4, b5, b6, b7, b8, b9]

/-- C8 counterexample: after relinquish(0) from P and reinsertion into Q at
index 0, the node's parent is Q and Q's count grew by one, but P's child
count is unchanged (still 1) — `Relinquish` does not remove the child from
P's sequence, so the claimed decrease by one does not happen. -/
theorem c8_counterexample :
    (let p : OwnObj := { id := 0, children := [2] }
     let q : OwnObj := { id := 1 }
     let c : OwnObj := { id := 2, parent := some 0 }
     let st3 := insertChild (setParent (relinquish [p, q, c] 0 0).1 2 1) 1 2 0
     (findObj st3 2).map (fun o => o.parent) = some (some 1) ∧
     (findObj st3 1).map (fun o => o.children.length) = some 1 ∧
     (findObj st3 0).map (fun o => o.children.length) = some 1 ∧
     ¬ ((findObj st3 0).map (fun o => o.children.length) = some 0)) := by
  decide

theorem c8_witness :
    (let p : OwnObj := { id := 0, children := [2] }
     let q : OwnObj := { id := 1 }
     let c : OwnObj := { id := 2, parent := some 0 }
     (relinquish [p, q, c] p.id 0).2 = some c.id ∧
     (let st3 := insertChild
         (setParent (relinquish [p, q, c] p.id 0).1 c.id q.id) q.id c.id 0
      findObj st3 c.id = some { c with parent := some q.id } ∧
      (findObj st3 q.id).map (fun o => o.children.length) =
        some (q.children.length + 1) ∧
      (findObj st3 p.id).map (fun o => o.children.length) =
        some (p.children.length) ∧
      (findObj (clearRelinquishedChildren st3 p.id) p.id).map
         (fun o => o.children.length) = some (p.children.length - 1))) :=
  c8_relinquish_reinsert
    { id := 0, children := [2] } { id := 1 } { id := 2, parent := some 0 }
    (by decide) (by decide) (by decide) rfl rfl

/-- C10: teardown deletes only what it still owns.  For a non-reference
node, `ClearChildren` (which is all the destructor runs) empties the child
sequence; a child whose parent pointer still equals the node is deleted
(gone from the store), while a child relinquished beforehand (parent
pointer reset) is removed from the sequence without being deleted. -/
theorem c10_clear_children (p a b : OwnObj)
    (hpa : p.id ≠ a.id) (hpb : p.id ≠ b.id) (hab : a.id ≠ b.id)
    (hch : p.children = [a.id, b.id])
    (hap : a.parent = some p.id) (hbp : b.parent ≠ some p.id)
    (href : p.isReferenceObject = false) :
    findObj (clearChildren [p, a, b] p.id) p.id = some { p with children := [] } ∧
    findObj (clearChildren [p, a, b] p.id) a.id = none ∧
    findObj (clearChildren [p, a, b] p.id) b.id = some b ∧
    objectDestructor [p, a, b] p.id = clearChildren [p, a, b] p.id := by
  have hpa' := Ne.symm hpa
  have hpb' := Ne.symm hpb
  have hab' := Ne.symm hab
  have b1 : (p.id == p.id) = true := by simp
  have b2 : (a.id == p.id) = false := by simp [hpa']
  have b3 : (b.id == p.id) = false := by simp [hpb']
  have b4 : (p.id == a.id) = false := by simp [hpa]
  have b5 : (a.id == a.id) = true := by simp
  have b6 : (b.id == a.id) = false := by simp [hab']
  have b7 : (p.id == b.id) = false := by simp [hpb]
  have b8 : (a.id == b.id) = false := by simp [hab]
  have b9 : (b.id == b.id) = true := by simp
  have hb : (b.parent == some p.id) = false := by simp [hbp]
  refine ⟨?_, ?_, ?_, rfl⟩ <;>
    simp [clearChildren, findObj, updObj, List.find?, hch, hap, hb, href,
      hpa, hpb, hab, hpa', hpb', hab',
      b1, b2, b3, b4, b5, b6, b7, b8, b9]

theorem c10_witness :
    (let p : OwnObj := { id := 0, children := [1, 2] }
     let a : OwnObj := { id := 1, parent := some 0 }
     let b : OwnObj := { id := 2, parent := none }
     findObj (clearChildren [p, a, b] p.id) p.id = some { p with children := [] } ∧
     findObj (clearChildren [p, a, b] p.id) a.id = none ∧
     findObj (clearChildren [p, a, b] p.id) b.id = some b ∧
     objectDestructor [p, a, b] p.id = clearChildren [p, a, b] p.id) :=
  c10_clear_children
    { id := 0, children := [1, 2] } { id := 1, parent := some 0 }
    { id := 2, parent := none }
    (by decide) (by decide) (by decide) rfl rfl (by decide) rfl

/-! ### Overflow Layout Pass (`Object::CalcBBoxOverflows`) -/

/-- A per-staff layout alignment record (`StaffAlignment`): running max
overflow above/below, the dedicated scoreDef-clef accumulators, and the
sets of contributing bounding boxes. -/
structure StaffAlignment where
  overflowAbove : Int := 0
  overflowBelow : Int := 0
  scoreDefClefOverflowAbove : Int := 0
  scoreDefClefOverflowBelow : Int := 0
  bboxesAbove : List Nat := []
  bboxesBelow : List Nat := []
deriving DecidableEq, Repr

/-- Modelled from the spec: `StaffAlignment::SetOverflowAbove` (defined
outside the excerpt) keeps the running max overflow above. -/
def setOverflowAbove (a : StaffAlignment) (v : Int) : StaffAlignment :=
  { a with overflowAbove := max a.overflowAbove v }

/-- Modelled from the spec: running max overflow below. -/
def setOverflowBelow (a : StaffAlignment) (v : Int) : StaffAlignment :=
  { a with overflowBelow := max a.overflowBelow v }

/-- Modelled from the spec: the dedicated scoreDef-clef accumulator above. -/
def setScoreDefClefOverflowAbove (a : StaffAlignment) (v : Int) : StaffAlignment :=
  { a with scoreDefClefOverflowAbove := max a.scoreDefClefOverflowAbove v }

/-- Modelled from the spec: the dedicated scoreDef-clef accumulator below. -/
def setScoreDefClefOverflowBelow (a : StaffAlignment) (v : Int) : StaffAlignment :=
  { a with scoreDefClefOverflowBelow := max a.scoreDefClefOverflowBelow v }

/-- `StaffAlignment::AddBBoxAbove`: record a contributing node. -/
def addBBoxAbove (a : StaffAlignment) (i : Nat) : StaffAlignment :=
  { a with bboxesAbove := a.bboxesAbove ++ [i] }

/-- `StaffAlignment::AddBBoxBelow`: record a contributing node. -/
def addBBoxBelow (a : StaffAlignment) (i : Nat) : StaffAlignment :=
  { a with bboxesBelow := a.bboxesBelow ++ [i] }

/-- The mutable context of the pass (`CalcBBoxOverflowsParams`): the current
staff alignment (bound when a staff is entered, keyed by staff id) and the
per-staff alignment records owned by the pass. -/
structure OvState where
  staffAlignment : Option Nat := none
  aligns : List (Nat × StaffAlignment) := []
deriving DecidableEq, Repr

/-- Update one staff's alignment record in the context. -/
def updAlign (s : OvState) (k : Nat) (f : StaffAlignment → StaffAlignment) : OvState :=
  { s with aligns := s.aligns.map (fun p => if p.1 == k then (p.1, f p.2) else p) }

/-- `Object::CalcBBoxOverflows` (`src/object.cpp:1918-2054`), branch by
branch: staves bind the context alignment (invisible staves skip their
subtree); layers would re-run the pass on up to four attached staffDef
elements (their accessors are outside the excerpt; the trees considered
here carry none, so the branch just continues); system elements, control
elements, non-layer elements are excluded; a beam with cross-staff content
that is not itself cross-staff is excluded; a stem of a cross-staff note is
excluded when its ancestor beam is not itself cross-staff or when the note
is in a beam span (the ancestor queries are snapshot in `NodeData`);
figured bass, figures and syllables are excluded; nodes with no drawn
extent are excluded.  For the rest the overflow above/below (snapshot of
`CalcOverflowAbove/Below` against the alignment the element spans —
modelled from the spec as the current staff alignment) is recorded iff it
exceeds half the staff line width, into the dedicated scoreDef accumulators
for a system-scoreDef clef and into the general running max plus
contributing-box set otherwise. -/
def calcBBoxOverflows (lineWidth : Int) (st : OvState) (d : NodeData) :
    OvState × FunctorCode :=
  if d.classId = ClassId.STAFF then
    if !d.drawingIsVisible then (st, FunctorCode.SIBLINGS)
    else ({ st with staffAlignment := some d.id }, FunctorCode.CONTINUE)
  else if d.classId = ClassId.LAYER then (st, FunctorCode.CONTINUE)
  else if d.isSystemElement then (st, FunctorCode.CONTINUE)
  else if d.isControlElement then (st, FunctorCode.CONTINUE)
  else if ¬ d.isLayerElement then (st, FunctorCode.CONTINUE)
  else if d.classId = ClassId.BEAM ∧ d.crossStaffContent ∧ ¬ d.crossStaff then
    (st, FunctorCode.CONTINUE)
  else if d.classId = ClassId.STEM ∧ d.stemParentCrossStaff ∧
      ((d.stemHasAncestorBeam ∧ ¬ d.stemAncestorBeamCrossStaff) ∨
       (¬ d.stemHasAncestorBeam ∧ d.stemInBeamSpan)) then
    (st, FunctorCode.CONTINUE)
  else if d.classId = ClassId.FB ∨ d.classId = ClassId.FIGURE then
    (st, FunctorCode.CONTINUE)
  else if d.classId = ClassId.SYL then (st, FunctorCode.CONTINUE)
  else if ¬ d.hasSelfBB then (st, FunctorCode.CONTINUE)
  else
    match st.staffAlignment with
    | none => (st, FunctorCode.CONTINUE)
    | some k =>
      let isScoreDefClef := d.classId = ClassId.CLEF ∧ d.scoreDefRoleSystem
      let st1 :=
        if d.overflowAbove > lineWidth / 2 then
          if isScoreDefClef then
            updAlign st k (fun a => setScoreDefClefOverflowAbove a d.overflowAbove)
          else
            updAlign st k (fun a => addBBoxAbove (setOverflowAbove a d.overflowAbove) d.id)
        else st
      let st2 :=
        if d.overflowBelow > lineWidth / 2 then
          if isScoreDefClef then
            updAlign st1 k (fun a => setScoreDefClefOverflowBelow a d.overflowBelow)
          else
            updAlign st1 k (fun a => addBBoxBelow (setOverflowBelow a d.overflowBelow) d.id)
        else st1
      (st2, FunctorCode.CONTINUE)

/-- `Object::CalcBBoxOverflowsEnd` re-runs the pass on a layer's cautionary
staffDef elements; with none attached (their accessors are outside the
excerpt) it just continues. -/
def calcBBoxOverflowsEnd (st : OvState) (_d : NodeData) : OvState × FunctorCode :=
  (st, FunctorCode.CONTINUE)

/-- The overflow pass: one forward, visible-only traversal of the tree with
the `CalcBBoxOverflows` entry functor and its end functor. -/
def overflowPass (lineWidth : Int) (t : Node) (init : OvState) : TravState OvState :=
  process { visit := calcBBoxOverflows lineWidth, visibleOnly := true }
    (some { visit := calcBBoxOverflowsEnd, visibleOnly := true })
    none FORWARD unlimitedDepth false t { st := init }

/-- C9: cross-staff beam exception in the overflow pass.  A beam with
cross-staff content that is not itself marked cross-staff contributes
nothing — the functor leaves the whole pass context (every staff
alignment) unchanged and continues.  In the scenario
`Root → Staff(visible) → Layer → [NoteA(overflowing), Beam(content-cross-staff)]`
the pass records NoteA's overflow into the staff alignment but nothing
from the beam. -/
theorem c9_beam_cross_staff_exception (lw : Int) (st : OvState) (d : NodeData)
    (hb : d.classId = ClassId.BEAM) (hcc : d.crossStaffContent = true)
    (hcs : d.crossStaff = false) :
    calcBBoxOverflows lw st d = (st, FunctorCode.CONTINUE) ∧
    (let staff : NodeData :=
       { id := 1, classId := ClassId.STAFF, drawingIsVisible := true }
     let layer : NodeData := { id := 2, classId := ClassId.LAYER }
     let noteA : NodeData :=
       { id := 3, classId := ClassId.NOTE, isLayerElement := true,
         hasSelfBB := true, overflowAbove := 100, overflowBelow := 0 }
     let beam : NodeData :=
       { id := 4, classId := ClassId.BEAM, isLayerElement := true,
         hasSelfBB := true, crossStaff := false, crossStaffContent := true,
         overflowAbove := 100, overflowBelow := 100 }
     let t : Node := .mk { id := 0 }
       [.mk staff [.mk layer [.mk noteA [], .mk beam []]]]
     let res := (overflowPass 2 t { aligns := [(1, {})] }).st
     res.aligns = [(1, { overflowAbove := 100, bboxesAbove := [3] })] ∧
     (∀ a ∈ res.aligns, 4 ∉ a.2.bboxesAbove ∧ 4 ∉ a.2.bboxesBelow) ∧
     (∃ a ∈ res.aligns, 3 ∈ a.2.bboxesAbove)) := by
  constructor
  · simp [calcBBoxOverflows, hb, hcc, hcs]
  · refine ⟨?_, ?_, ?_⟩ <;>
      simp [overflowPass, process, processList, callF, callEndF, updScore,
        skipChildren, filtersApply, FORWARD, BACKWARD, unlimitedDepth,
        Node.data, Node.children, calcBBoxOverflows, calcBBoxOverflowsEnd,
        updAlign, setOverflowAbove, setOverflowBelow, addBBoxAbove, addBBoxBelow]

theorem c9_witness :
    (let beam : NodeData :=
       { id := 4, classId := ClassId.BEAM, isLayerElement := true,
         hasSelfBB := true, crossStaff := false, crossStaffContent := true,
         overflowAbove := 100, overflowBelow := 100 }
     calcBBoxOverflows 2 { aligns := [(1, {})] } beam =
       ({ aligns := [(1, {})] }, FunctorCode.CONTINUE)) :=
  (c9_beam_cross_staff_exception 2 { aligns := [(1, {})] }
    { id := 4, classId := ClassId.BEAM, isLayerElement := true,
      hasSelfBB := true, crossStaff := false, crossStaffContent := true,
      overflowAbove := 100, overflowBelow := 100 } rfl rfl rfl).1

end VrvSpec
